import Mathlib

/-!
Shallow embedding of `aligner.py` (the afaligner stream controller).

The controller walks a stream of text files and a stream of audio files,
aligns MFCC frame sequences with a boundary-tolerant DTW kernel
(`c_FastDTWBD`, external to this file's claims and modelled as an oracle
function), projects per-fragment anchors through the warping path and emits
`fragment_id -> (text_file, audio_file, begin_time, end_time)` records.

Modelling conventions:
* machine integers (numpy int64) become `Int`, sequence indices become `Nat`;
* Python floats become exact rationals (`ℚ`); the frame period `0.040`
  is the exact rational `1/25`.  Float rounding of `k * 0.040` is at a
  relative error of `2 ^ (-53)` and never moves a frame timing across a
  microsecond boundary for realistic `k`, so the exact model agrees with
  the source on every displayed timestamp.  Because `Batteries` marks the
  field operations on `ℚ` `@[irreducible]`, the embedding computes with
  reducible primitives (`Rat.divInt`, `mkRat`, integer arithmetic on
  `num`/`den`) and bridges them to `*` by the lemma `qmul_eq`;
* numpy arrays become lists; slicing `a[i:j]` becomes `(a.drop i).take (j-i)`;
* Python dicts (insertion ordered, assignment overwrites in place) become
  association lists with `dictInsert` / `dictUpdate`;
* the external collaborators (synthesizer, MFCC extraction, ffmpeg, the DTW
  kernel) are oracle fields of a `Collab` structure; the controller's own
  code is translated line by line from `create_map`.
-/

/-- Multiplication of rationals through the reduced representation;
equal to `a * b` by `qmul_eq` below, but kernel-reducible. -/
def qmul (a b : ℚ) : ℚ := Rat.divInt (a.num * b.num) ((a.den : ℤ) * (b.den : ℤ))

/-- Floor of a rational, computed from the normalised numerator/denominator
(`den > 0` is a `Rat` invariant, so flooring is `Int.fdiv num den`). -/
def qfloor (q : ℚ) : ℤ := q.num.fdiv (q.den : ℤ)

/-- Round a rational to the nearest integer, ties to even: the rounding
CPython's `datetime.timedelta` applies to fractional microseconds.  The
comparison of the fractional part `r = q - floor q` against `1/2` is done in
integers: `r < 1/2  ↔  2*(num - floor*den) < den` since `den > 0`. -/
def roundHalfEven (q : ℚ) : ℤ :=
  let n := qfloor q
  let twice : ℤ := 2 * (q.num - n * (q.den : ℤ))
  if twice < (q.den : ℤ) then n
  else if (q.den : ℤ) < twice then n + 1
  else if n % 2 = 0 then n else n + 1

/-- Left-pad a string with the character `0` to width `w`; Python's
f-string padding `{x:0>w}`. -/
def pad_left_zero (w : Nat) (s : String) : String :=
  String.mk (List.replicate (w - s.length) '0') ++ s

/-- `time_to_str` from aligner.py.  `timedelta(seconds=t)` normalises `t` to a
whole number of microseconds, rounding half to even (CPython's documented
behaviour for float arguments); the `H`/`MM`/`SS` fields then come from the
integer seconds and `mmm` from `microseconds // 1000`.  The source's spec
declares negative inputs undefined; the model fixes the nonnegative branch
(`Int.toNat`), on which Python's `int()` truncation and floor agree. -/
def time_to_str (t : ℚ) : String :=
  let tus : Nat := (roundHalfEven (qmul t 1000000)).toNat
  let total : Nat := tus / 1000000
  let us : Nat := tus % 1000000
  let hours := total / 3600
  let minutes := (total % 3600) / 60
  let seconds := total % 60
  let ms := us / 1000
  toString hours ++ ":" ++ pad_left_zero 2 (toString minutes) ++ ":" ++
    pad_left_zero 2 (toString seconds) ++ "." ++ pad_left_zero 3 (toString ms)

/-- `np.searchsorted(xs, v)` with the default `side='left'` on a sorted
array: the first index `k` with `v ≤ xs[k]` (the length if there is none). -/
def searchsorted (xs : List ℤ) (v : ℤ) : Nat :=
  match xs with
  | [] => 0
  | x :: rest => if v ≤ x then 0 else searchsorted rest v + 1

/-- Python dict assignment `d[k] = v`: overwrite in place if the key is
present (keeping its position), otherwise append. -/
def dictInsert {γ : Type} (m : List (String × γ)) (k : String) (v : γ) :
    List (String × γ) :=
  match m with
  | [] => [(k, v)]
  | (k0, v0) :: rest =>
    if k0 = k then (k, v) :: rest else (k0, v0) :: dictInsert rest k v

/-- Python `d.update(m)`: insert `m`'s pairs into `d` in order. -/
def dictUpdate {γ : Type} (m new : List (String × γ)) : List (String × γ) :=
  new.foldl (fun acc q => dictInsert acc q.1 q.2) m

/-- Python dict lookup (first matching key of the association list). -/
def dictGet {γ : Type} (m : List (String × γ)) (k : String) : Option γ :=
  match m with
  | [] => none
  | (k0, v0) :: rest => if k0 = k then some v0 else dictGet rest k

/-- `os.path.join(a, b)` for two POSIX components: `b` if `b` is absolute,
`a ++ b` if `a` is empty or ends with a slash, `a ++ "/" ++ b` otherwise. -/
def os_path_join (a b : String) : String :=
  if b.data.head? = some '/' then b
  else if a = "" ∨ a.data.getLast? = some '/' then a ++ b
  else a ++ "/" ++ b

/-- The characters after the last slash (the whole list if there is none). -/
def last_component (cs : List Char) : List Char :=
  cs.foldl (fun acc c => if c = '/' then [] else acc ++ [c]) []

/-- `get_name_from_path` from aligner.py: `os.path.split(path)[1]`, the
component after the last slash. -/
def get_name_from_path (p : String) : String :=
  String.mk (last_component p.data)

/-- One mapping record: the value stored under a fragment id. -/
structure FragmentRecord where
  text_file : String
  audio_file : String
  begin_time : String
  end_time : String
deriving DecidableEq

/-- Per-text-file sub-mapping: fragment id to record, insertion ordered. -/
abbrev FragMap := List (String × FragmentRecord)

/-- The whole mapping: output text name to sub-mapping, insertion ordered. -/
abbrev TextMap := List (String × FragMap)

/-- The frame period `0.040` seconds, exactly `1/25`. -/
def frame_period : ℚ := mkRat 1 25

/-- `int(a[0] / TimeValue('0.040'))`: anchor seconds to frame index.  The
division is exact decimal arithmetic in the source; `int()` truncates toward
zero, which on the nonnegative anchor times is the floor. -/
def seconds_to_frame (s : ℚ) : ℤ := qfloor (qmul s 25)

/-- `path[:, 0]`: the text-side projection of the warping path. -/
def text_path_frames (path : List (Nat × Nat)) : List Nat :=
  path.map (fun q => q.1)

/-- `path[:, 1]`: the audio-side projection of the warping path. -/
def audio_path_frames (path : List (Nat × Nat)) : List Nat :=
  path.map (fun q => q.2)

/-- `text_path_frames[0]`, the first matched text frame (`f0`). -/
def first_matched_text_frame (path : List (Nat × Nat)) : Nat :=
  (text_path_frames path).headD 0

/-- `text_path_frames[-1]`, the last matched text frame (`f1`). -/
def last_matched_text_frame (path : List (Nat × Nat)) : Nat :=
  (text_path_frames path).getLastD 0

/-- `audio_path_frames[-1]`, the last matched audio frame. -/
def last_matched_audio_frame (path : List (Nat × Nat)) : Nat :=
  (audio_path_frames path).getLastD 0

/-- `max(anchors_boundary_indices[0] - 1, 0)`: the selection's low end,
extended down by one (truncated `Nat` subtraction is exactly `max (k-1) 0`). -/
def map_anchors_from (anchors : List ℤ) (f0 : Nat) : Nat :=
  searchsorted anchors (f0 : ℤ) - 1

/-- `anchors_boundary_indices[1]`: the selection's high end (exclusive). -/
def map_anchors_to (anchors : List ℤ) (f1 : Nat) : Nat :=
  searchsorted anchors (f1 : ℤ)

/-- `anchors[map_anchors_from:map_anchors_to]`. -/
def anchors_to_map (anchors : List ℤ) (f0 f1 : Nat) : List ℤ :=
  (anchors.drop (map_anchors_from anchors f0)).take
    (map_anchors_to anchors f1 - map_anchors_from anchors f0)

/-- `fragments[map_anchors_from:map_anchors_to]`. -/
def fragments_to_map (anchors : List ℤ) (fragments : List String) (f0 f1 : Nat) :
    List String :=
  (fragments.drop (map_anchors_from anchors f0)).take
    (map_anchors_to anchors f1 - map_anchors_from anchors f0)

/-- View a frame-index array as signed integers (numpy's int64 comparisons
against the anchor array). -/
def int_frames (xs : List Nat) : List ℤ := xs.map Int.ofNat

/-- `np.searchsorted(text_path_frames, anchors_to_map)`. -/
def text_path_anchor_indices (path : List (Nat × Nat)) (anchors : List ℤ)
    (f0 f1 : Nat) : List Nat :=
  (anchors_to_map anchors f0 f1).map
    (fun a => searchsorted (int_frames (text_path_frames path)) a)

/-- `audio_path_frames[text_path_anchor_indices]`.  The indices are in bounds
whenever the path is a genuine warping path; an out-of-range read defaults to
`0` in the model where numpy would raise. -/
def anchors_matched_frames (path : List (Nat × Nat)) (anchors : List ℤ)
    (f0 f1 : Nat) : List Nat :=
  (text_path_anchor_indices path anchors f0 f1).map
    (fun i => (audio_path_frames path).getD i 0)

/-- `(np.append(anchors_matched_frames, audio_path_frames[-1]) + audio_start_frame) * 0.040`. -/
def timings (path : List (Nat × Nat)) (anchors : List ℤ) (f0 f1 off : Nat) :
    List ℚ :=
  ((anchors_matched_frames path anchors f0 f1) ++ [last_matched_audio_frame path]).map
    (fun fr => qmul ((fr + off : Nat) : ℚ) frame_period)

/-- One emitted record (the dict comprehension's value). -/
def mk_record (otn oan : String) (bt et : ℚ) : FragmentRecord :=
  { text_file := otn, audio_file := oan,
    begin_time := time_to_str bt, end_time := time_to_str et }

/-- The dict comprehension over `zip(fragments_to_map, timings[:-1], timings[1:])`:
`timings.zip timings.tail` is exactly the list of adjacent timing pairs, and
`zip` truncates to the shortest input just as Python's `zip` does. -/
def fragment_map (otn oan : String) (frs : List String) (ts : List ℚ) : FragMap :=
  (frs.zip (ts.zip ts.tail)).foldl
    (fun acc q => dictInsert acc q.1 (mk_record otn oan q.2.1 q.2.2)) []

/-- Everything the loop body recomputes after the DTW call (lines 130-204):
the emitted sub-mapping and the next iteration's loop variables. -/
structure IterOut (α β : Type) where
  fragment_map : FragMap
  process_next_text : Bool
  process_next_audio : Bool
  text_mfcc_sequence : List α
  anchors : List ℤ
  fragments : List String
  audio_mfcc_sequence : List β
  audio_start_frame : Nat

/-- The loop body of `create_map` after a nonempty warping path was obtained:
anchor projection, record emission and the advance decision. -/
def runIterCore {α β : Type} (otn oan : String) (tseq : List α) (aseq : List β)
    (anchors : List ℤ) (fragments : List String) (off : Nat)
    (path : List (Nat × Nat)) : IterOut α β :=
  let m := aseq.length
  let f0 := first_matched_text_frame path
  let f1 := last_matched_text_frame path
  let lj := last_matched_audio_frame path
  let ts := timings path anchors f0 f1 off
  let fm := fragment_map otn oan (fragments_to_map anchors fragments f0 f1) ts
  let adv_t : Bool := map_anchors_to anchors f1 == anchors.length
  let adv_a : Bool := (lj == m - 1) || !adv_t
  { fragment_map := fm
    process_next_text := adv_t
    process_next_audio := adv_a
    text_mfcc_sequence := if adv_t then tseq else tseq.drop f1
    anchors := if adv_t then anchors
      else (anchors.drop (map_anchors_to anchors f1)).map (fun a => a - (f1 : ℤ))
    fragments := if adv_t then fragments
      else fragments.drop (map_anchors_to anchors f1)
    audio_mfcc_sequence := if adv_a then aseq else aseq.drop lj
    audio_start_frame := if adv_a then off else off + lj }

/-- The external collaborators of `create_map`, as oracles, plus the two
caller-supplied path components (`output_text_path_prefix` and
`output_audio_path_prefix` of the source).  `synthesize` yields the
`(start_seconds, fragment_id)` anchor list of a text file; `text_mfcc` and
`audio_mfcc` yield MFCC frame sequences (frames are abstract, only their
number drives the controller); `dtw` is `c_FastDTWBD(text, audio,
skip_penalty, radius)` returning the warping path. -/
structure Collab (α β : Type) where
  synthesize : String → List (ℚ × String)
  text_mfcc : String → List α
  audio_mfcc : String → List β
  dtw : List α → List β → ℚ → Nat → List (Nat × Nat)
  out_text_path_pre : String
  out_audio_path_pre : String

/-- The loop variables of `create_map`, between iterations.  The per-file
fields are unbound in Python before the first iteration; both process flags
start `true`, so the model's defaults are never read. -/
structure AlignState (α β : Type) where
  textPaths : List String
  audioPaths : List String
  text_to_audio_map : TextMap
  process_next_text : Bool
  process_next_audio : Bool
  text_name : String
  output_text_name : String
  text_mfcc_sequence : List α
  anchors : List ℤ
  fragments : List String
  audio_name : String
  output_audio_name : String
  audio_mfcc_sequence : List β
  audio_start_frame : Nat
deriving DecidableEq

/-- `skip_penalty = 0.75`. -/
def skip_penalty : ℚ := mkRat 3 4

/-- The diagnostic printed when the warping path is empty (lines 136-140). -/
def no_match_message (tn an : String) : String :=
  "No match between " ++ tn ++ " and " ++ an ++ ". " ++
    "Alignment is terminated. " ++ "Adjust skip_penalty or input files."

/-- Lines 84-110: pull the next text file if `process_next_text`; `none`
models the `break` on `StopIteration`.  Line 91 of the source builds
`output_text_name` from `output_audio_path_prefix` (not the text one). -/
def pullText {α β : Type} (c : Collab α β) (st : AlignState α β) :
    Option (AlignState α β) :=
  if st.process_next_text then
    match st.textPaths with
    | [] => none
    | tp :: rest =>
      let tn := get_name_from_path tp
      let otn := os_path_join c.out_audio_path_pre tn
      let raw := c.synthesize tp
      some { st with
        textPaths := rest
        text_name := tn
        output_text_name := otn
        text_to_audio_map := dictInsert st.text_to_audio_map otn []
        fragments := raw.map (fun a => a.2)
        anchors := raw.map (fun a => seconds_to_frame a.1)
        text_mfcc_sequence := c.text_mfcc tp }
  else some st

/-- Lines 112-128: pull the next audio file if `process_next_audio`; `none`
models the `break` on `StopIteration`.  Pulling resets `audio_start_frame`. -/
def pullAudio {α β : Type} (c : Collab α β) (st : AlignState α β) :
    Option (AlignState α β) :=
  if st.process_next_audio then
    match st.audioPaths with
    | [] => none
    | ap :: rest =>
      let an := get_name_from_path ap
      some { st with
        audioPaths := rest
        audio_name := an
        output_audio_name := os_path_join c.out_audio_path_pre an
        audio_mfcc_sequence := c.audio_mfcc ap
        audio_start_frame := 0 }
  else some st

/-- The outcome of one pass through the `while True` body. -/
inductive StepResult (α β : Type) where
  | done (m : TextMap)
  | noMatch (msg : String)
  | next (st : AlignState α β)

/-- One pass through the `while True` body of `create_map`: the two pulls
(each `break` returns the mapping built so far), the DTW call, the empty-path
abort, and otherwise the iteration core plus the `update` of the current
text file's sub-mapping (line 180). -/
def step {α β : Type} (c : Collab α β) (st : AlignState α β) : StepResult α β :=
  match pullText c st with
  | none => .done st.text_to_audio_map
  | some st1 =>
    match pullAudio c st1 with
    | none => .done st1.text_to_audio_map
    | some st2 =>
      let path := c.dtw st2.text_mfcc_sequence st2.audio_mfcc_sequence skip_penalty 200
      if path = [] then
        .noMatch (no_match_message st2.text_name st2.audio_name)
      else
        let out := runIterCore st2.output_text_name st2.output_audio_name
          st2.text_mfcc_sequence st2.audio_mfcc_sequence st2.anchors
          st2.fragments st2.audio_start_frame path
        let sub := (dictGet st2.text_to_audio_map st2.output_text_name).getD []
        .next { st2 with
          text_to_audio_map := dictInsert st2.text_to_audio_map
            st2.output_text_name (dictUpdate sub out.fragment_map)
          process_next_text := out.process_next_text
          process_next_audio := out.process_next_audio
          text_mfcc_sequence := out.text_mfcc_sequence
          anchors := out.anchors
          fragments := out.fragments
          audio_mfcc_sequence := out.audio_mfcc_sequence
          audio_start_frame := out.audio_start_frame }

/-- The `while True` loop, fuel-indexed.  A `noMatch` pass prints the
diagnostic and returns the empty dict (line 141); `done` returns the mapping.
The first component collects the printed diagnostics. -/
def create_map_loop {α β : Type} (c : Collab α β) :
    Nat → AlignState α β → List String × TextMap
  | 0, st => ([], st.text_to_audio_map)
  | Nat.succ fuel, st =>
    match step c st with
    | .done m => ([], m)
    | .noMatch msg => ([msg], [])
    | .next st1 => create_map_loop c fuel st1

/-- The loop variables at entry of `create_map` (lines 79-81). -/
def init_state {α β : Type} (texts audios : List String) : AlignState α β :=
  { textPaths := texts
    audioPaths := audios
    text_to_audio_map := []
    process_next_text := true
    process_next_audio := true
    text_name := ""
    output_text_name := ""
    text_mfcc_sequence := []
    anchors := []
    fragments := []
    audio_name := ""
    output_audio_name := ""
    audio_mfcc_sequence := []
    audio_start_frame := 0 }

/-- `create_map`: run the loop to completion.  Every `next` pass consumes at
least one input file (if `process_next_text` is false the audio side
advances), so `texts + audios + 1` passes always suffice. -/
def create_map {α β : Type} (c : Collab α β) (texts audios : List String) :
    List String × TextMap :=
  create_map_loop c (texts.length + audios.length + 1) (init_state texts audios)

/-- Oracle instance for the concrete end-to-end run used by the prefix-bug
claim: one text file with a single fragment anchored at 0 s, one audio file,
a diagonal warping path, and the two distinct caller-supplied path
components from the source's own `__main__` invocation. -/
def demo_collab : Collab Nat Nat :=
  { synthesize := fun _ => [(0, "f000")]
    text_mfcc := fun _ => [0, 1, 2, 3]
    audio_mfcc := fun _ => [0, 1, 2, 3]
    dtw := fun t a _ _ => (List.range (min t.length a.length)).map (fun i => (i, i))
    out_text_path_pre := "../text/"
    out_audio_path_pre := "../audio/" }

/-- Oracle instance whose DTW kernel reports no match. -/
def failing_collab : Collab Nat Nat :=
  { synthesize := fun _ => [(0, "f000")]
    text_mfcc := fun _ => [0]
    audio_mfcc := fun _ => [0]
    dtw := fun _ _ _ _ => []
    out_text_path_pre := ""
    out_audio_path_pre := "" }

/-- A nonempty mapping accumulated by (hypothetical) earlier iterations. -/
def prior_map : TextMap := [("prev.xhtml", [("f000", mk_record "x" "y" 0 0)])]

/-- Controller state with one text and one audio file left and a nonempty
accumulated mapping. -/
def failing_state : AlignState Nat Nat :=
  { init_state ["t1.xhtml"] ["a1.mp3"] with text_to_audio_map := prior_map }

/-- `failing_state` after both pulls: what the loop variables hold when the
DTW call of the next pass runs. -/
def failing_state2 : AlignState Nat Nat :=
  { textPaths := []
    audioPaths := []
    text_to_audio_map := prior_map ++ [("t1.xhtml", [])]
    process_next_text := true
    process_next_audio := true
    text_name := "t1.xhtml"
    output_text_name := "t1.xhtml"
    text_mfcc_sequence := [0]
    anchors := [0]
    fragments := ["f000"]
    audio_name := "a1.mp3"
    output_audio_name := "a1.mp3"
    audio_mfcc_sequence := [0]
    audio_start_frame := 0 }

/-- Witness inputs: three fragments anchored at text frames 0, 2 and 5, a
diagonal warping path over four frames (so the last matched text frame is 3
and anchor 5 starts an unconsumed tail). -/
def wit_anchors : List ℤ := [0, 2, 5]

/-- Witness inputs: the fragment ids belonging to `wit_anchors`. -/
def wit_fragments : List String := ["f000", "f001", "f002"]

/-- Witness inputs: a diagonal warping path over four frames. -/
def wit_path : List (Nat × Nat) := [(0, 0), (1, 1), (2, 2), (3, 3)]

/-- Witness inputs: a four-frame text MFCC sequence. -/
def wit_tseq : List Nat := [0, 1, 2, 3]

/-- Witness inputs: a four-frame audio MFCC sequence. -/
def wit_aseq : List Nat := [0, 1, 2, 3]

/-- A six-step diagonal warping path (first matched text frame 0, last 5). -/
def cex4_path : List (Nat × Nat) := [(0, 0), (1, 1), (2, 2), (3, 3), (4, 4), (5, 5)]

/-- First iteration of the two-iteration tail scenario: text frames 0-9 with
anchors 0, 4, 8 against a six-frame audio file matched diagonally; the text
tail from frame 5 on is carried to the next iteration. -/
def demo_iter1 : IterOut Nat Nat :=
  runIterCore "T" "A1" (List.range 10) (List.range 6) [0, 4, 8]
    ["f000", "f001", "f002"] 0 ((List.range 6).map (fun i => (i, i)))

/-- Second iteration of the tail scenario: the carried text tail against a
fresh eight-frame audio file (the first iteration set `process_next_audio`,
so the audio offset is reset to 0). -/
def demo_iter2 : IterOut Nat Nat :=
  runIterCore "T" "A2" demo_iter1.text_mfcc_sequence (List.range 8)
    demo_iter1.anchors demo_iter1.fragments 0 ((List.range 5).map (fun i => (i, i)))

/-- The embedding's `qmul` is rational multiplication. -/
theorem qmul_eq (a b : ℚ) : qmul a b = a * b := by
  rw [qmul, Rat.divInt_eq_div]
  push_cast
  rw [← div_mul_div_comm, Rat.num_div_den, Rat.num_div_den]

/-- The frame period is nonnegative. -/
theorem frame_period_nonneg : 0 ≤ frame_period := by
  rw [frame_period, Rat.mkRat_eq_div]
  norm_num

/-- Unfolding equation for `searchsorted` on a cons cell. -/
theorem searchsorted_cons (x : ℤ) (rest : List ℤ) (v : ℤ) :
    searchsorted (x :: rest) v =
      if v ≤ x then 0 else searchsorted rest v + 1 := rfl

/-- `searchsorted` never exceeds the length. -/
theorem searchsorted_le_length (xs : List ℤ) (v : ℤ) :
    searchsorted xs v ≤ xs.length := by
  induction xs with
  | nil => simp [searchsorted]
  | cons x rest ih =>
    rw [searchsorted_cons, List.length_cons]
    split <;> omega

/-- On a sorted list, the elements from index `searchsorted xs v` on are
exactly those at least `v`: characterisation of the left insertion point. -/
theorem searchsorted_le_iff {xs : List ℤ} (hs : xs.Pairwise (· ≤ ·)) {k : ℕ}
    (hk : k < xs.length) (v : ℤ) :
    searchsorted xs v ≤ k ↔ v ≤ xs.getD k 0 := by
  induction xs generalizing k with
  | nil => simp at hk
  | cons x rest ih =>
    rw [List.pairwise_cons] at hs
    rw [searchsorted_cons]
    by_cases hv : v ≤ x
    · rw [if_pos hv]
      constructor
      · intro _
        cases k with
        | zero => simpa using hv
        | succ m =>
          have hm : m < rest.length := by simpa using hk
          have hmem : rest.getD m 0 ∈ rest := by
            rw [List.getD_eq_getElem _ _ hm]
            exact List.getElem_mem hm
          simpa using le_trans hv (hs.1 _ hmem)
      · intro _
        exact Nat.zero_le k
    · rw [if_neg hv]
      cases k with
      | zero =>
        simp only [List.getD_cons_zero]
        exact ⟨fun h => absurd h (by omega), fun h => absurd h hv⟩
      | succ m =>
        have hm : m < rest.length := by simpa using hk
        rw [Nat.succ_le_succ_iff, List.getD_cons_succ]
        exact ih hs.2 hm

/-- `searchsorted` is monotone in the probe value. -/
theorem searchsorted_mono (xs : List ℤ) {v w : ℤ} (h : v ≤ w) :
    searchsorted xs v ≤ searchsorted xs w := by
  induction xs with
  | nil => simp [searchsorted]
  | cons x rest ih =>
    rw [searchsorted_cons, searchsorted_cons]
    by_cases hw : w ≤ x
    · rw [if_pos hw, if_pos (le_trans h hw)]
    · split <;> omega

/-- If some element is at least `v`, the insertion point is a real index. -/
theorem searchsorted_lt_length {xs : List ℤ} {v : ℤ}
    (h : ∃ x ∈ xs, v ≤ x) : searchsorted xs v < xs.length := by
  induction xs with
  | nil =>
    obtain ⟨x, hx, _⟩ := h
    exact absurd hx (List.not_mem_nil x)
  | cons x rest ih =>
    rw [searchsorted_cons, List.length_cons]
    by_cases hv : v ≤ x
    · rw [if_pos hv]
      omega
    · rw [if_neg hv]
      obtain ⟨y, hy, hvy⟩ := h
      rcases List.mem_cons.mp hy with rfl | hy2
      · exact absurd hvy hv
      · exact Nat.succ_lt_succ (ih ⟨y, hy2, hvy⟩)

/-- The insertion point is the length exactly when every element is
(strictly) below the probe value. -/
theorem searchsorted_eq_length_iff (xs : List ℤ) (v : ℤ) :
    searchsorted xs v = xs.length ↔ ∀ x ∈ xs, x < v := by
  induction xs with
  | nil => simp [searchsorted]
  | cons x rest ih =>
    rw [searchsorted_cons, List.length_cons]
    by_cases hv : v ≤ x
    · rw [if_pos hv]
      simp only [List.mem_cons]
      constructor
      · intro h
        exact absurd h.symm (Nat.succ_ne_zero _)
      · intro h
        exact absurd (h x (Or.inl rfl)) (not_lt.mpr hv)
    · rw [if_neg hv]
      simp only [Nat.succ_inj, List.mem_cons, ih]
      constructor
      · rintro h y (rfl | hy)
        · exact lt_of_not_ge hv
        · exact h y hy
      · intro h y hy
        exact h y (Or.inr hy)

/-- Every element of the prefix before the insertion point is below the
probe value (no sortedness needed). -/
theorem lt_of_mem_take_searchsorted :
    ∀ {l : List ℤ} {v a : ℤ} {n : ℕ},
      n ≤ searchsorted l v → a ∈ l.take n → a < v := by
  intro l
  induction l with
  | nil =>
    intro v a n _ ha
    simp at ha
  | cons x rest ih =>
    intro v a n hn ha
    rw [searchsorted_cons] at hn
    by_cases hv : v ≤ x
    · rw [if_pos hv] at hn
      interval_cases n
      simp at ha
    · rw [if_neg hv] at hn
      cases n with
      | zero => simp at ha
      | succ m =>
        rcases List.mem_cons.mp (by simpa using ha) with rfl | ha2
        · exact lt_of_not_ge hv
        · exact ih (by omega) ha2

/-- On a sorted list, every element from the insertion point on is at least
the probe value. -/
theorem le_of_mem_drop_searchsorted {l : List ℤ} (hs : l.Pairwise (· ≤ ·))
    {v a : ℤ} (ha : a ∈ l.drop (searchsorted l v)) : v ≤ a := by
  induction l with
  | nil => simp at ha
  | cons x rest ih =>
    rw [List.pairwise_cons] at hs
    rw [searchsorted_cons] at ha
    by_cases hv : v ≤ x
    · rw [if_pos hv, List.drop_zero] at ha
      rcases List.mem_cons.mp ha with rfl | ha2
      · exact hv
      · exact le_trans hv (hs.1 _ ha2)
    · rw [if_neg hv, List.drop_succ_cons] at ha
      exact ih hs.2 ha

/-- In a sorted list, values at increasing indices are nondecreasing. -/
theorem getD_le_getD_of_pairwise {γ : Type} [Preorder γ] {l : List γ}
    (hs : l.Pairwise (· ≤ ·)) {i j : ℕ} (hij : i ≤ j) (hj : j < l.length)
    (d : γ) : l.getD i d ≤ l.getD j d := by
  have hi : i < l.length := lt_of_le_of_lt hij hj
  rw [List.getD_eq_getElem _ _ hi, List.getD_eq_getElem _ _ hj]
  rcases eq_or_lt_of_le hij with rfl | hlt
  · exact le_refl _
  · have h2 := List.pairwise_iff_get.mp hs ⟨i, hi⟩ ⟨j, hj⟩ hlt
    simpa using h2

/-- In a sorted list, every value is at most the last one. -/
theorem getD_le_getLastD_of_pairwise {γ : Type} [Preorder γ] {l : List γ}
    (hs : l.Pairwise (· ≤ ·)) {k : ℕ} (hk : k < l.length) (d e : γ) :
    l.getD k d ≤ l.getLastD e := by
  have hlast : l.length - 1 < l.length := by omega
  have h2 := getD_le_getD_of_pairwise hs (by omega : k ≤ l.length - 1) hlast d
  rw [List.getD_eq_getElem _ _ hk, List.getD_eq_getElem _ _ hlast] at h2
  rw [List.getLastD_eq_getLast?, List.getLast?_eq_getElem?,
    List.getElem?_eq_getElem hlast, Option.getD_some,
    List.getD_eq_getElem _ _ hk]
  exact h2

/-- `getLastD` of a nonempty list is a member. -/
theorem getLastD_mem {γ : Type} {l : List γ} (h : l ≠ []) (d : γ) :
    l.getLastD d ∈ l := by
  rw [List.getLastD_eq_getLast?, List.getLast?_eq_getLast l h, Option.getD_some]
  exact List.getLast_mem h

/-- Adjacent pairs (the zip of a list with its own tail) of a `Pairwise`
list are related. -/
theorem pairwise_zip_tail {γ : Type} {R : γ → γ → Prop} :
    ∀ {l : List γ}, l.Pairwise R → ∀ p ∈ l.zip l.tail, R p.1 p.2 := by
  intro l
  induction l with
  | nil =>
    intro _ p hp
    simp at hp
  | cons x rest ih =>
    intro h p hp
    cases rest with
    | nil => simp at hp
    | cons y t =>
      rw [List.pairwise_cons] at h
      simp only [List.tail_cons, List.zip_cons_cons, List.mem_cons] at hp
      rcases hp with rfl | hp2
      · exact h.1 y (List.mem_cons_self _ _)
      · exact ih h.2 p hp2

/-- A member of the slice `l[i:j]` is a member of the prefix `l[:j]`. -/
theorem mem_take_of_mem_take_drop {γ : Type} {l : List γ} {i j : ℕ} {a : γ}
    (h : a ∈ (l.drop i).take (j - i)) : a ∈ l.take j := by
  by_cases hij : i ≤ j
  · rw [List.take_drop] at h
    have h2 := List.mem_of_mem_drop h
    rwa [Nat.add_sub_cancel' hij] at h2
  · rw [Nat.sub_eq_zero_of_le (le_of_not_ge hij), List.take_zero] at h
    simp at h

/-- Every selected anchor is strictly below the last matched text frame
(the high end of the `searchsorted` selection is exclusive). -/
theorem mem_anchors_to_map_lt {anchors : List ℤ} {f0 f1 : Nat} {a : ℤ}
    (ha : a ∈ anchors_to_map anchors f0 f1) : a < (f1 : ℤ) := by
  rw [anchors_to_map] at ha
  exact lt_of_mem_take_searchsorted (le_refl _) (mem_take_of_mem_take_drop ha)

/-- Inserting a fresh key appends it to the key list. -/
theorem dictInsert_keys_of_not_mem {γ : Type} (m : List (String × γ))
    (k : String) (v : γ) (h : k ∉ m.map Prod.fst) :
    (dictInsert m k v).map Prod.fst = m.map Prod.fst ++ [k] := by
  induction m with
  | nil => rfl
  | cons p rest ih =>
    obtain ⟨k0, v0⟩ := p
    simp only [List.map_cons, List.mem_cons] at h
    push_neg at h
    have hne : ¬ k0 = k := fun hh => h.1 hh.symm
    simp only [dictInsert, if_neg hne, List.map_cons, ih h.2, List.cons_append]

/-- Inserting under one key leaves lookups of other keys unchanged. -/
theorem dictGet_dictInsert_ne {γ : Type} (m : List (String × γ))
    {k1 k : String} (v : γ) (h : k1 ≠ k) :
    dictGet (dictInsert m k1 v) k = dictGet m k := by
  induction m with
  | nil => simp [dictInsert, dictGet, h]
  | cons p rest ih =>
    obtain ⟨k0, v0⟩ := p
    by_cases h0 : k0 = k1
    · subst h0
      simp [dictInsert, dictGet, h]
    · have hstep : dictInsert ((k0, v0) :: rest) k1 v =
          (k0, v0) :: dictInsert rest k1 v := by
        simp [dictInsert, h0]
      rw [hstep]
      by_cases hk : k0 = k
      · simp [dictGet, hk]
      · simp [dictGet, hk, ih]

/-- An update whose keys avoid `k` leaves the lookup of `k` unchanged. -/
theorem dictGet_dictUpdate_of_not_mem {γ : Type} (new : List (String × γ)) :
    ∀ (m : List (String × γ)) (k : String), k ∉ new.map Prod.fst →
      dictGet (dictUpdate m new) k = dictGet m k := by
  induction new with
  | nil =>
    intro m k _
    rfl
  | cons p rest ih =>
    intro m k h
    obtain ⟨k1, v1⟩ := p
    simp only [List.map_cons, List.mem_cons] at h
    push_neg at h
    have hstep : dictUpdate m ((k1, v1) :: rest) =
        dictUpdate (dictInsert m k1 v1) rest := rfl
    rw [hstep, ih _ _ h.2, dictGet_dictInsert_ne _ _ (fun hh => h.1 hh.symm)]

/-- Folding fresh-keyed insertions appends the keys in order. -/
theorem foldl_dictInsert_keys (otn oan : String) :
    ∀ (l : List (String × ℚ × ℚ)) (acc : FragMap),
      (acc.map Prod.fst ++ l.map Prod.fst).Nodup →
      ((l.foldl (fun a q => dictInsert a q.1 (mk_record otn oan q.2.1 q.2.2))
          acc).map Prod.fst) = acc.map Prod.fst ++ l.map Prod.fst := by
  intro l
  induction l with
  | nil =>
    intro acc _
    simp
  | cons q t ih =>
    intro acc h
    rw [List.foldl_cons]
    have hfresh : q.1 ∉ acc.map Prod.fst := by
      intro hmem
      rw [List.map_cons] at h
      exact (List.nodup_append.mp h).2.2 hmem (List.mem_cons_self _ _)
    have hkeys := dictInsert_keys_of_not_mem acc q.1
      (mk_record otn oan q.2.1 q.2.2) hfresh
    have h2 : ((dictInsert acc q.1 (mk_record otn oan q.2.1 q.2.2)).map Prod.fst
        ++ t.map Prod.fst).Nodup := by
      rw [hkeys, ← List.append_cons]
      simpa using h
    rw [ih _ h2, hkeys, List.map_cons, ← List.append_cons]

/-- With distinct fragment ids (and enough timing pairs), the emitted
sub-mapping lists exactly the zipped fragment ids, in order. -/
theorem fragment_map_keys (otn oan : String) (frs : List String) (ts : List ℚ)
    (hnd : frs.Nodup) (hlen : frs.length ≤ (ts.zip ts.tail).length) :
    (fragment_map otn oan frs ts).map Prod.fst = frs := by
  have hfst : (frs.zip (ts.zip ts.tail)).map Prod.fst = frs :=
    List.map_fst_zip _ _ hlen
  rw [fragment_map, foldl_dictInsert_keys otn oan (frs.zip (ts.zip ts.tail)) []]
  · rw [List.map_nil, List.nil_append, hfst]
  · rw [List.map_nil, List.nil_append, hfst]
    exact hnd

/-- Rounding an exact natural number of microseconds is the identity. -/
theorem roundHalfEven_natCast (k : ℕ) : roundHalfEven (k : ℚ) = (k : ℤ) := by
  simp [roundHalfEven, qfloor, Rat.num_natCast, Rat.den_natCast, Int.fdiv_one]

/-- Claim C1: the `text_file` field of every emitted record is built with
`os.path.join(output_audio_path_prefix, text_name)` (aligner.py line 91), not
with the caller-supplied `output_text_path_prefix`.  Running the controller
end to end with the text path component `"../text/"` and the audio path
component `"../audio/"` produces a record whose `text_file` is
`"../audio/t1.xhtml"`, which differs from joining the text path component
with the file's base name. -/
theorem create_map_text_file_wrong_pre :
    (create_map demo_collab ["t1.xhtml"] ["a1.mp3"]).2 =
      [("../audio/t1.xhtml",
        [("f000",
          { text_file := "../audio/t1.xhtml"
            audio_file := "../audio/a1.mp3"
            begin_time := "0:00:00.000"
            end_time := "0:00:00.120" })])]
    ∧ demo_collab.out_text_path_pre = "../text/"
    ∧ "../audio/t1.xhtml" ≠
        os_path_join demo_collab.out_text_path_pre
          (get_name_from_path "t1.xhtml") := by
  decide

/-- Claim C2: whenever the DTW call of an iteration returns an empty warping
path, the whole loop returns the empty mapping together with the diagnostic
naming the text and audio files of that iteration; whatever mapping had been
accumulated in `st` is discarded. -/
theorem empty_path_aborts_with_empty_map {α β : Type} (c : Collab α β)
    (st st2 : AlignState α β) (fuel : Nat)
    (h1 : (pullText c st).bind (pullAudio c) = some st2)
    (h2 : c.dtw st2.text_mfcc_sequence st2.audio_mfcc_sequence skip_penalty 200
      = []) :
    create_map_loop c (fuel + 1) st =
      ([no_match_message st2.text_name st2.audio_name], []) := by
  have hstep : step c st =
      .noMatch (no_match_message st2.text_name st2.audio_name) := by
    rcases hpt : pullText c st with _ | st1
    · rw [hpt] at h1
      simp at h1
    · rw [hpt] at h1
      simp only [Option.some_bind] at h1
      simp [step, hpt, h1, h2]
  simp [create_map_loop, hstep]

/-- Claim C2 (witness): a concrete no-match run with a nonempty accumulated
mapping ends with the diagnostic and the empty mapping. -/
theorem empty_path_aborts_with_empty_map_witness :
    ((pullText failing_collab failing_state).bind (pullAudio failing_collab)
      = some failing_state2)
    ∧ failing_collab.dtw failing_state2.text_mfcc_sequence
        failing_state2.audio_mfcc_sequence skip_penalty 200 = []
    ∧ failing_state.text_to_audio_map ≠ []
    ∧ create_map_loop failing_collab 1 failing_state =
        ([no_match_message "t1.xhtml" "a1.mp3"], []) :=
  ⟨by decide, by decide, by decide,
    empty_path_aborts_with_empty_map failing_collab failing_state
      failing_state2 0 (by decide) (by decide)⟩

/-- Claim C3 (counterexample): `timedelta` rounds the input to a whole
number of microseconds before `time_to_str` truncates microseconds to
milliseconds, so a sub-millisecond part can round up: at
`t = 3725 + 16777/1048576` (a dyadic rational, hence exactly representable
as a Python float, about `3725.0159998` s) the truncated milliseconds of `t`
are `15` but the emitted string shows `016`. -/
theorem time_to_str_rounds_up_sub_ms_cex :
    time_to_str (mkRat 3905962377 1048576) = "1:02:05.016"
    ∧ mkRat 3905962377 1048576 = 3725 + 16777 / 1048576
    ∧ qfloor (qmul (mkRat 3905962377 1048576) 1000) % 1000 = 15
    ∧ "1:02:05.016" ≠ "1:02:05.015" :=
  ⟨by decide, by rw [Rat.mkRat_eq_div]; norm_num, by decide, by decide⟩

/-- Claim C3 (amended): `time_to_str t` emits `H:MM:SS.mmm` where the four
fields are the hour, minute, second and millisecond truncations of the
microsecond count `roundHalfEven (t * 10^6)` (CPython's `timedelta`
normalisation), `MM`/`SS` are below 60 and `mmm` below 1000 (so the
zero-padding yields exactly 2, 2 and 3 digits), and for inputs that are an
exact number of microseconds the sub-millisecond part is truncated, never
rounded up. -/
theorem time_to_str_fields_spec (t : ℚ) (h : 0 ≤ t) :
    time_to_str t =
      toString ((roundHalfEven (qmul t 1000000)).toNat / 3600000000) ++ ":" ++
        pad_left_zero 2
          (toString ((roundHalfEven (qmul t 1000000)).toNat / 60000000 % 60)) ++
        ":" ++
        pad_left_zero 2
          (toString ((roundHalfEven (qmul t 1000000)).toNat / 1000000 % 60)) ++
        "." ++
        pad_left_zero 3
          (toString ((roundHalfEven (qmul t 1000000)).toNat / 1000 % 1000))
    ∧ (roundHalfEven (qmul t 1000000)).toNat / 60000000 % 60 < 60
    ∧ (roundHalfEven (qmul t 1000000)).toNat / 1000000 % 60 < 60
    ∧ (roundHalfEven (qmul t 1000000)).toNat / 1000 % 1000 < 1000
    ∧ ∀ k : ℕ, qmul t 1000000 = (k : ℚ) →
        (roundHalfEven (qmul t 1000000)).toNat / 1000 % 1000 = k / 1000 % 1000 := by
  refine ⟨?_, Nat.mod_lt _ (by norm_num), Nat.mod_lt _ (by norm_num),
    Nat.mod_lt _ (by norm_num), ?_⟩
  · have e1 : (roundHalfEven (qmul t 1000000)).toNat / 1000000 / 3600 =
        (roundHalfEven (qmul t 1000000)).toNat / 3600000000 := by
      rw [Nat.div_div_eq_div_mul]
    have e2 : (roundHalfEven (qmul t 1000000)).toNat / 1000000 % 3600 / 60 =
        (roundHalfEven (qmul t 1000000)).toNat / 60000000 % 60 := by
      rw [show (3600 : ℕ) = 60 * 60 from rfl, Nat.mod_mul_right_div_self,
        Nat.div_div_eq_div_mul]
    have e3 : (roundHalfEven (qmul t 1000000)).toNat % 1000000 / 1000 =
        (roundHalfEven (qmul t 1000000)).toNat / 1000 % 1000 := by
      rw [show (1000000 : ℕ) = 1000 * 1000 from rfl, Nat.mod_mul_right_div_self]
    simp only [time_to_str]
    rw [e1, e2, e3]
  · intro k hk
    rw [hk, roundHalfEven_natCast, Int.toNat_natCast]

/-- Claim C3 (witness): at `t = 3725.015625` (an exact number of
microseconds) the amended field description applies and the emitted string
is `"1:02:05.015"`, the truncation example of the specification. -/
theorem time_to_str_fields_spec_witness :
    (0 : ℚ) ≤ mkRat 3725015625 1000000
    ∧ (time_to_str (mkRat 3725015625 1000000) =
        toString ((roundHalfEven (qmul (mkRat 3725015625 1000000) 1000000)).toNat
          / 3600000000) ++ ":" ++
          pad_left_zero 2
            (toString ((roundHalfEven (qmul (mkRat 3725015625 1000000) 1000000)).toNat
              / 60000000 % 60)) ++
          ":" ++
          pad_left_zero 2
            (toString ((roundHalfEven (qmul (mkRat 3725015625 1000000) 1000000)).toNat
              / 1000000 % 60)) ++
          "." ++
          pad_left_zero 3
            (toString ((roundHalfEven (qmul (mkRat 3725015625 1000000) 1000000)).toNat
              / 1000 % 1000))
      ∧ (roundHalfEven (qmul (mkRat 3725015625 1000000) 1000000)).toNat
          / 60000000 % 60 < 60
      ∧ (roundHalfEven (qmul (mkRat 3725015625 1000000) 1000000)).toNat
          / 1000000 % 60 < 60
      ∧ (roundHalfEven (qmul (mkRat 3725015625 1000000) 1000000)).toNat
          / 1000 % 1000 < 1000
      ∧ ∀ k : ℕ, qmul (mkRat 3725015625 1000000) 1000000 = (k : ℚ) →
          (roundHalfEven (qmul (mkRat 3725015625 1000000) 1000000)).toNat
            / 1000 % 1000 = k / 1000 % 1000)
    ∧ time_to_str (mkRat 3725015625 1000000) = "1:02:05.015" :=
  ⟨by decide, time_to_str_fields_spec (mkRat 3725015625 1000000) (by decide),
    by decide⟩

/-- Claim C4 (counterexample): with anchors at text frames 0 and 5 and a
diagonal warping path whose first and last matched text frames are 0 and 5,
every anchor satisfies the claim's closed condition `f0 ≤ a ≤ f1`, so under
the claim both fragments would be selected, yet the code selects only the
first: `np.searchsorted`'s left insertion point excludes an anchor exactly
equal to the last matched text frame. -/
theorem anchor_selection_excludes_f1_cex :
    first_matched_text_frame cex4_path = 0
    ∧ last_matched_text_frame cex4_path = 5
    ∧ fragments_to_map [0, 5] ["f000", "f001"]
        (first_matched_text_frame cex4_path) (last_matched_text_frame cex4_path)
        = ["f000"]
    ∧ (∀ k, k < ([0, 5] : List ℤ).length →
        ((first_matched_text_frame cex4_path : ℤ) ≤ ([0, 5] : List ℤ).getD k 0
          ∧ ([0, 5] : List ℤ).getD k 0 ≤ (last_matched_text_frame cex4_path : ℤ)))
    ∧ ["f000"] ≠ ["f000", "f001"] := by
  decide

/-- Claim C4 (amended): on a strictly increasing anchor array the
binary-search range `[k0, k1)` contains exactly the indices whose anchors
satisfy `f0 ≤ anchors[k] < f1` (the high end is exclusive: an anchor exactly
equal to the last matched text frame is not selected), and the fragments
selected for mapping are those of the range with the low end extended by one
(`max (k0 - 1) 0`) and the high end not extended. -/
theorem anchor_selection_range_spec (anchors : List ℤ)
    (fragments : List String) (f0 f1 : Nat)
    (hs : anchors.Pairwise (· < ·)) :
    (∀ k, k < anchors.length →
      ((searchsorted anchors (f0 : ℤ) ≤ k ∧ k < map_anchors_to anchors f1) ↔
        ((f0 : ℤ) ≤ anchors.getD k 0 ∧ anchors.getD k 0 < (f1 : ℤ))))
    ∧ fragments_to_map anchors fragments f0 f1 =
        (fragments.drop (map_anchors_from anchors f0)).take
          (map_anchors_to anchors f1 - map_anchors_from anchors f0)
    ∧ map_anchors_from anchors f0 = searchsorted anchors (f0 : ℤ) - 1 := by
  have hle : anchors.Pairwise (· ≤ ·) := hs.imp (fun hab => le_of_lt hab)
  refine ⟨fun k hk => ?_, rfl, rfl⟩
  have h0 := searchsorted_le_iff hle hk (f0 : ℤ)
  have h1 := searchsorted_le_iff hle hk (f1 : ℤ)
  rw [map_anchors_to]
  constructor
  · rintro ⟨ha, hb⟩
    refine ⟨h0.mp ha, ?_⟩
    by_contra hcon
    push_neg at hcon
    have := h1.mpr hcon
    omega
  · rintro ⟨ha, hb⟩
    refine ⟨h0.mpr ha, ?_⟩
    by_contra hcon
    push_neg at hcon
    exact absurd (h1.mp hcon) (not_le.mpr hb)

/-- Claim C4 (witness): the amended selection description at the concrete
anchors 0, 2, 5 with matched text frames 0 to 3. -/
theorem anchor_selection_range_spec_witness :
    wit_anchors.Pairwise (· < ·)
    ∧ ((∀ k, k < wit_anchors.length →
        ((searchsorted wit_anchors ((0 : Nat) : ℤ) ≤ k
            ∧ k < map_anchors_to wit_anchors 3) ↔
          (((0 : Nat) : ℤ) ≤ wit_anchors.getD k 0
            ∧ wit_anchors.getD k 0 < ((3 : Nat) : ℤ))))
      ∧ fragments_to_map wit_anchors wit_fragments 0 3 =
          (wit_fragments.drop (map_anchors_from wit_anchors 0)).take
            (map_anchors_to wit_anchors 3 - map_anchors_from wit_anchors 0)
      ∧ map_anchors_from wit_anchors 0 = searchsorted wit_anchors ((0 : Nat) : ℤ) - 1) :=
  ⟨by decide, anchor_selection_range_spec wit_anchors wit_fragments 0 3 (by decide)⟩

/-- Claim C5: after an iteration, `process_next_text` is set exactly when
`map_anchors_to` reached the end of the anchor array — equivalently, when
every anchor lies strictly below the last matched text frame, i.e. all
anchors were consumed; otherwise the text MFCC sequence is sliced from
`P[-1].i` on, the fragment array from the first unconsumed index, and the
remaining anchors are rebased by subtracting `P[-1].i`. -/
theorem advance_text_spec {α β : Type} (otn oan : String) (tseq : List α)
    (aseq : List β) (anchors : List ℤ) (fragments : List String) (off : Nat)
    (path : List (Nat × Nat)) (hne : path ≠ []) :
    ((runIterCore otn oan tseq aseq anchors fragments off path).process_next_text
        = true ↔
      map_anchors_to anchors (last_matched_text_frame path) = anchors.length)
    ∧ (map_anchors_to anchors (last_matched_text_frame path) = anchors.length ↔
      ∀ a ∈ anchors, a < (last_matched_text_frame path : ℤ))
    ∧ ((runIterCore otn oan tseq aseq anchors fragments off path).process_next_text
        = false →
      (runIterCore otn oan tseq aseq anchors fragments off path).text_mfcc_sequence
          = tseq.drop (last_matched_text_frame path)
      ∧ (runIterCore otn oan tseq aseq anchors fragments off path).fragments
          = fragments.drop (map_anchors_to anchors (last_matched_text_frame path))
      ∧ (runIterCore otn oan tseq aseq anchors fragments off path).anchors
          = (anchors.drop (map_anchors_to anchors (last_matched_text_frame path))).map
              (fun a => a - (last_matched_text_frame path : ℤ))) := by
  refine ⟨?_, searchsorted_eq_length_iff anchors _, ?_⟩
  · simp [runIterCore]
  · intro hfalse
    by_cases hc : map_anchors_to anchors (last_matched_text_frame path)
        = anchors.length
    · rw [runIterCore] at hfalse
      simp only [hc, beq_self_eq_true] at hfalse
      exact Bool.noConfusion hfalse
    · refine ⟨?_, ?_, ?_⟩ <;> simp [runIterCore, hc]

/-- Claim C5 (witness): the advance-text rule at a concrete iteration whose
anchor 5 lies past the last matched text frame 3, so the text tail is kept,
sliced and rebased. -/
theorem advance_text_spec_witness :
    wit_path ≠ []
    ∧ (((runIterCore "T" "A" wit_tseq wit_aseq wit_anchors wit_fragments 0
          wit_path).process_next_text = true ↔
        map_anchors_to wit_anchors (last_matched_text_frame wit_path)
          = wit_anchors.length)
      ∧ (map_anchors_to wit_anchors (last_matched_text_frame wit_path)
          = wit_anchors.length ↔
        ∀ a ∈ wit_anchors, a < (last_matched_text_frame wit_path : ℤ))
      ∧ (((runIterCore "T" "A" wit_tseq wit_aseq wit_anchors wit_fragments 0
            wit_path).process_next_text = false →
        (runIterCore "T" "A" wit_tseq wit_aseq wit_anchors wit_fragments 0
            wit_path).text_mfcc_sequence
            = wit_tseq.drop (last_matched_text_frame wit_path)
        ∧ (runIterCore "T" "A" wit_tseq wit_aseq wit_anchors wit_fragments 0
            wit_path).fragments
            = wit_fragments.drop
                (map_anchors_to wit_anchors (last_matched_text_frame wit_path))
        ∧ (runIterCore "T" "A" wit_tseq wit_aseq wit_anchors wit_fragments 0
            wit_path).anchors
            = (wit_anchors.drop
                (map_anchors_to wit_anchors (last_matched_text_frame wit_path))).map
                  (fun a => a - (last_matched_text_frame wit_path : ℤ))))) :=
  ⟨by decide, advance_text_spec "T" "A" wit_tseq wit_aseq wit_anchors
    wit_fragments 0 wit_path (by decide)⟩

/-- Claim C6: after an iteration, `process_next_audio` is set exactly when
the last matched audio frame is `m - 1` or the text side is not advancing;
otherwise the audio MFCC sequence is sliced from `P[-1].j` on and `P[-1].j`
is added to the audio start-frame offset. -/
theorem advance_audio_spec {α β : Type} (otn oan : String) (tseq : List α)
    (aseq : List β) (anchors : List ℤ) (fragments : List String) (off : Nat)
    (path : List (Nat × Nat)) (hne : path ≠ []) :
    ((runIterCore otn oan tseq aseq anchors fragments off path).process_next_audio
        = true ↔
      (last_matched_audio_frame path = aseq.length - 1 ∨
        (runIterCore otn oan tseq aseq anchors fragments off path).process_next_text
          = false))
    ∧ ((runIterCore otn oan tseq aseq anchors fragments off path).process_next_audio
        = false →
      (runIterCore otn oan tseq aseq anchors fragments off path).audio_mfcc_sequence
          = aseq.drop (last_matched_audio_frame path)
      ∧ (runIterCore otn oan tseq aseq anchors fragments off path).audio_start_frame
          = off + last_matched_audio_frame path) := by
  by_cases h1 : last_matched_audio_frame path = aseq.length - 1 <;>
    by_cases h2 : map_anchors_to anchors (last_matched_text_frame path)
      = anchors.length <;>
  · constructor
    · simp [runIterCore, h1, h2]
    · intro hfalse
      constructor <;> simp_all [runIterCore, h1, h2]

/-- Claim C6 (witness): the advance-audio rule at the concrete iteration of
`wit_path`: the last matched audio frame is `m - 1`, so the audio advances. -/
theorem advance_audio_spec_witness :
    wit_path ≠ []
    ∧ (((runIterCore "T" "A" wit_tseq wit_aseq wit_anchors wit_fragments 0
          wit_path).process_next_audio = true ↔
        (last_matched_audio_frame wit_path = wit_aseq.length - 1 ∨
          (runIterCore "T" "A" wit_tseq wit_aseq wit_anchors wit_fragments 0
            wit_path).process_next_text = false))
      ∧ ((runIterCore "T" "A" wit_tseq wit_aseq wit_anchors wit_fragments 0
          wit_path).process_next_audio = false →
        (runIterCore "T" "A" wit_tseq wit_aseq wit_anchors wit_fragments 0
            wit_path).audio_mfcc_sequence
            = wit_aseq.drop (last_matched_audio_frame wit_path)
        ∧ (runIterCore "T" "A" wit_tseq wit_aseq wit_anchors wit_fragments 0
            wit_path).audio_start_frame
            = 0 + last_matched_audio_frame wit_path)) :=
  ⟨by decide, advance_audio_spec "T" "A" wit_tseq wit_aseq wit_anchors
    wit_fragments 0 wit_path (by decide)⟩

/-- The timings array always has one more entry than the anchors selected
for mapping. -/
theorem timings_length (path : List (Nat × Nat)) (anchors : List ℤ)
    (f0 f1 off : Nat) :
    (timings path anchors f0 f1 off).length
      = (anchors_to_map anchors f0 f1).length + 1 := by
  simp [timings, anchors_matched_frames, text_path_anchor_indices]

/-- Claim C7: within one iteration the timings array is one longer than the
fragments to map, its `k`-th entry is `(matched audio frame + offset) * δ`,
and its trailing entry is `(P[-1].j + offset) * δ`. -/
theorem timings_spec (path : List (Nat × Nat)) (anchors : List ℤ)
    (fragments : List String) (off : Nat) (hne : path ≠ [])
    (hlen : anchors.length = fragments.length) :
    (timings path anchors (first_matched_text_frame path)
        (last_matched_text_frame path) off).length
      = (fragments_to_map anchors fragments (first_matched_text_frame path)
          (last_matched_text_frame path)).length + 1
    ∧ (∀ k, k < (anchors_to_map anchors (first_matched_text_frame path)
          (last_matched_text_frame path)).length →
        (timings path anchors (first_matched_text_frame path)
            (last_matched_text_frame path) off).getD k 0 =
          qmul (((anchors_matched_frames path anchors
              (first_matched_text_frame path)
              (last_matched_text_frame path)).getD k 0 + off : Nat) : ℚ)
            frame_period)
    ∧ (timings path anchors (first_matched_text_frame path)
          (last_matched_text_frame path) off).getLastD 0 =
        qmul ((last_matched_audio_frame path + off : Nat) : ℚ) frame_period := by
  refine ⟨?_, ?_, ?_⟩
  · rw [timings_length]
    have hsame : (anchors_to_map anchors (first_matched_text_frame path)
          (last_matched_text_frame path)).length
        = (fragments_to_map anchors fragments (first_matched_text_frame path)
            (last_matched_text_frame path)).length := by
      simp [anchors_to_map, fragments_to_map, hlen]
    rw [hsame]
  · intro k hk
    have hmf : k < (anchors_matched_frames path anchors
        (first_matched_text_frame path) (last_matched_text_frame path)).length := by
      simpa [anchors_matched_frames, text_path_anchor_indices] using hk
    rw [timings, List.map_append]
    have h1 : k < ((anchors_matched_frames path anchors
        (first_matched_text_frame path) (last_matched_text_frame path)).map
          (fun fr => qmul ((fr + off : Nat) : ℚ) frame_period)).length := by
      simpa using hmf
    have h2 : k < (((anchors_matched_frames path anchors
        (first_matched_text_frame path) (last_matched_text_frame path)).map
          (fun fr => qmul ((fr + off : Nat) : ℚ) frame_period)) ++
        ([last_matched_audio_frame path].map
          (fun fr => qmul ((fr + off : Nat) : ℚ) frame_period))).length := by
      rw [List.length_append]
      omega
    rw [List.getD_eq_getElem _ _ h2, List.getElem_append_left h1,
      List.getElem_map, List.getD_eq_getElem _ _ hmf]
  · rw [timings, List.map_append]
    simp only [List.map_cons, List.map_nil]
    rw [List.getLastD_eq_getLast?, List.getLast?_concat, Option.getD_some]

/-- Claim C7 (witness): the timing layout at the concrete iteration of
`wit_path`. -/
theorem timings_spec_witness :
    wit_path ≠ []
    ∧ wit_anchors.length = wit_fragments.length
    ∧ ((timings wit_path wit_anchors (first_matched_text_frame wit_path)
          (last_matched_text_frame wit_path) 0).length
        = (fragments_to_map wit_anchors wit_fragments
            (first_matched_text_frame wit_path)
            (last_matched_text_frame wit_path)).length + 1
      ∧ (∀ k, k < (anchors_to_map wit_anchors (first_matched_text_frame wit_path)
            (last_matched_text_frame wit_path)).length →
          (timings wit_path wit_anchors (first_matched_text_frame wit_path)
              (last_matched_text_frame wit_path) 0).getD k 0 =
            qmul (((anchors_matched_frames wit_path wit_anchors
                (first_matched_text_frame wit_path)
                (last_matched_text_frame wit_path)).getD k 0 + 0 : Nat) : ℚ)
              frame_period)
      ∧ (timings wit_path wit_anchors (first_matched_text_frame wit_path)
            (last_matched_text_frame wit_path) 0).getLastD 0 =
          qmul ((last_matched_audio_frame wit_path + 0 : Nat) : ℚ) frame_period) :=
  ⟨by decide, by decide,
    timings_spec wit_path wit_anchors wit_fragments 0 (by decide) (by decide)⟩

/-- Claim C8: given a coordinate-monotone warping path and strictly
increasing anchors, the timing array of an iteration is nondecreasing on
adjacent pairs (each record's `begin` and `end` are such an adjacent pair,
so `begin_time ≤ end_time`), and the fragments are emitted in anchor order:
the emitted keys are exactly `fragments_to_map`, an order-preserving
sublist of the fragment array. -/
theorem fragment_emission_monotone (otn oan : String)
    (path : List (Nat × Nat)) (anchors : List ℤ) (fragments : List String)
    (off : Nat) (hne : path ≠ [])
    (hpath : path.Pairwise (fun p q => p.1 ≤ q.1 ∧ p.2 ≤ q.2))
    (hanch : anchors.Pairwise (· < ·)) (hnd : fragments.Nodup)
    (hlen : anchors.length = fragments.length) :
    (∀ p ∈ (timings path anchors (first_matched_text_frame path)
          (last_matched_text_frame path) off).zip
        (timings path anchors (first_matched_text_frame path)
          (last_matched_text_frame path) off).tail, p.1 ≤ p.2)
    ∧ (fragment_map otn oan
          (fragments_to_map anchors fragments (first_matched_text_frame path)
            (last_matched_text_frame path))
          (timings path anchors (first_matched_text_frame path)
            (last_matched_text_frame path) off)).map Prod.fst
        = fragments_to_map anchors fragments (first_matched_text_frame path)
            (last_matched_text_frame path)
    ∧ (fragments_to_map anchors fragments (first_matched_text_frame path)
        (last_matched_text_frame path)).Sublist fragments := by
  set F0 := first_matched_text_frame path with hF0
  set F1 := last_matched_text_frame path with hF1
  have hsub : (fragments_to_map anchors fragments F0 F1).Sublist fragments :=
    (List.take_sublist _ _).trans (List.drop_sublist _ _)
  have haudio : (audio_path_frames path).Pairwise (· ≤ ·) :=
    List.pairwise_map.mpr (hpath.imp (fun hab => hab.2))
  have htxne : text_path_frames path ≠ [] := by
    simp [text_path_frames, hne]
  have hF1mem : ((F1 : ℕ) : ℤ) ∈ int_frames (text_path_frames path) := by
    have hmem : F1 ∈ text_path_frames path := by
      rw [hF1, last_matched_text_frame]
      exact getLastD_mem htxne 0
    exact List.mem_map.mpr ⟨F1, hmem, rfl⟩
  have hbound : ∀ a ∈ anchors_to_map anchors F0 F1,
      searchsorted (int_frames (text_path_frames path)) a
        < (audio_path_frames path).length := by
    intro a ha
    have haf1 : a < (F1 : ℤ) := mem_anchors_to_map_lt ha
    have hlt := searchsorted_lt_length ⟨((F1 : ℕ) : ℤ), hF1mem, le_of_lt haf1⟩
    have hlen2 : (int_frames (text_path_frames path)).length
        = (audio_path_frames path).length := by
      rw [int_frames, List.length_map, text_path_frames, audio_path_frames,
        List.length_map, List.length_map]
    rwa [hlen2] at hlt
  have hatm : (anchors_to_map anchors F0 F1).Pairwise (· < ·) :=
    List.Pairwise.sublist ((List.take_sublist _ _).trans (List.drop_sublist _ _))
      hanch
  have hmf_pw : (anchors_matched_frames path anchors F0 F1).Pairwise (· ≤ ·) := by
    rw [anchors_matched_frames, text_path_anchor_indices, List.map_map]
    apply List.pairwise_map.mpr
    refine List.Pairwise.imp_of_mem ?_ hatm
    intro a b hma hmb hab
    exact getD_le_getD_of_pairwise haudio
      (searchsorted_mono _ (le_of_lt hab)) (hbound b hmb) 0
  have hpw_app : ((anchors_matched_frames path anchors F0 F1)
      ++ [last_matched_audio_frame path]).Pairwise (· ≤ ·) := by
    rw [List.pairwise_append]
    refine ⟨hmf_pw, List.pairwise_singleton _ _, ?_⟩
    intro x hx y hy
    rcases List.mem_singleton.mp hy with rfl
    rw [anchors_matched_frames, text_path_anchor_indices, List.map_map] at hx
    rcases List.mem_map.mp hx with ⟨a, hma, rfl⟩
    rw [last_matched_audio_frame]
    exact getD_le_getLastD_of_pairwise haudio (hbound a hma) 0 0
  have hts_pw : (timings path anchors F0 F1 off).Pairwise (· ≤ ·) := by
    rw [timings]
    apply List.pairwise_map.mpr
    refine hpw_app.imp ?_
    intro a b hab
    rw [qmul_eq, qmul_eq]
    apply mul_le_mul_of_nonneg_right _ frame_period_nonneg
    exact_mod_cast Nat.add_le_add_right hab off
  refine ⟨fun p hp => pairwise_zip_tail hts_pw p hp, ?_, hsub⟩
  apply fragment_map_keys
  · exact hsub.nodup hnd
  · have h1 := timings_length path anchors F0 F1 off
    have h2 : (fragments_to_map anchors fragments F0 F1).length
        = (anchors_to_map anchors F0 F1).length := by
      simp [anchors_to_map, fragments_to_map, hlen]
    rw [List.length_zip, List.length_tail, h1, h2]
    omega

/-- Claim C8 (witness): monotone timings and order-preserving emission at
the concrete iteration of `wit_path`. -/
theorem fragment_emission_monotone_witness :
    wit_path ≠ []
    ∧ wit_path.Pairwise (fun p q => p.1 ≤ q.1 ∧ p.2 ≤ q.2)
    ∧ wit_anchors.Pairwise (· < ·)
    ∧ wit_fragments.Nodup
    ∧ wit_anchors.length = wit_fragments.length
    ∧ ((∀ p ∈ (timings wit_path wit_anchors (first_matched_text_frame wit_path)
            (last_matched_text_frame wit_path) 0).zip
          (timings wit_path wit_anchors (first_matched_text_frame wit_path)
            (last_matched_text_frame wit_path) 0).tail, p.1 ≤ p.2)
      ∧ (fragment_map "T" "A"
            (fragments_to_map wit_anchors wit_fragments
              (first_matched_text_frame wit_path)
              (last_matched_text_frame wit_path))
            (timings wit_path wit_anchors (first_matched_text_frame wit_path)
              (last_matched_text_frame wit_path) 0)).map Prod.fst
          = fragments_to_map wit_anchors wit_fragments
              (first_matched_text_frame wit_path)
              (last_matched_text_frame wit_path)
      ∧ (fragments_to_map wit_anchors wit_fragments
          (first_matched_text_frame wit_path)
          (last_matched_text_frame wit_path)).Sublist wit_fragments) :=
  ⟨by decide, by decide, by decide, by decide, by decide,
    fragment_emission_monotone "T" "A" wit_path wit_anchors wit_fragments 0
      (by decide) (by decide) (by decide) (by decide) (by decide)⟩

/-- Claim C9: whenever the controller keeps a text tail, the rebased anchor
array `anchors[map_anchors_to:] - P[-1].i` is element-wise nonnegative and
strictly increasing, provided the original anchors were strictly
increasing. -/
theorem rebased_anchors_spec {α β : Type} (otn oan : String) (tseq : List α)
    (aseq : List β) (anchors : List ℤ) (fragments : List String) (off : Nat)
    (path : List (Nat × Nat)) (hanch : anchors.Pairwise (· < ·))
    (hkeep : (runIterCore otn oan tseq aseq anchors fragments off
        path).process_next_text = false) :
    (∀ a ∈ (runIterCore otn oan tseq aseq anchors fragments off path).anchors,
        0 ≤ a)
    ∧ (runIterCore otn oan tseq aseq anchors fragments off
        path).anchors.Pairwise (· < ·) := by
  by_cases hc : map_anchors_to anchors (last_matched_text_frame path)
      = anchors.length
  · rw [runIterCore] at hkeep
    simp only [hc, beq_self_eq_true] at hkeep
    exact Bool.noConfusion hkeep
  · have hanchors : (runIterCore otn oan tseq aseq anchors fragments off
        path).anchors
        = (anchors.drop (map_anchors_to anchors
            (last_matched_text_frame path))).map
            (fun a => a - ((last_matched_text_frame path) : ℤ)) := by
      simp [runIterCore, hc]
    rw [hanchors]
    constructor
    · intro a ha
      rcases List.mem_map.mp ha with ⟨b, hb, rfl⟩
      have hble : ((last_matched_text_frame path : ℕ) : ℤ) ≤ b :=
        le_of_mem_drop_searchsorted (hanch.imp (fun hab => le_of_lt hab)) hb
      omega
    · apply List.pairwise_map.mpr
      refine (List.Pairwise.sublist (List.drop_sublist _ _) hanch).imp ?_
      intro a b hab
      omega

/-- Claim C9 (witness): the kept tail of the concrete iteration of
`wit_path` has the rebased anchor array `[2]`, nonnegative and strictly
increasing. -/
theorem rebased_anchors_spec_witness :
    wit_anchors.Pairwise (· < ·)
    ∧ (runIterCore "T" "A" wit_tseq wit_aseq wit_anchors wit_fragments 0
        wit_path).process_next_text = false
    ∧ ((∀ a ∈ (runIterCore "T" "A" wit_tseq wit_aseq wit_anchors wit_fragments 0
          wit_path).anchors, 0 ≤ a)
      ∧ (runIterCore "T" "A" wit_tseq wit_aseq wit_anchors wit_fragments 0
          wit_path).anchors.Pairwise (· < ·)) :=
  ⟨by decide, by decide,
    rebased_anchors_spec "T" "A" wit_tseq wit_aseq wit_anchors wit_fragments 0
      wit_path (by decide) (by decide)⟩

/-- Claim C10 (counterexample): a two-iteration run over one text file in
which a tail is carried (`process_next_text = false`, `process_next_audio =
true`).  The first iteration emits `f000, f001`; the second emits only
`f002`: no fragment id is emitted in both iterations, and the dictionary
update with the second iteration's records leaves the first iteration's
record of the straddling fragment `f001` untouched — contrary to the
claimed double emission with last-write-wins overwrite. -/
theorem tail_fragments_not_reemitted_cex :
    demo_iter1.process_next_text = false
    ∧ demo_iter1.process_next_audio = true
    ∧ demo_iter1.fragment_map.map Prod.fst = ["f000", "f001"]
    ∧ demo_iter2.fragment_map.map Prod.fst = ["f002"]
    ∧ (∀ f ∈ demo_iter1.fragment_map.map Prod.fst,
        f ∉ demo_iter2.fragment_map.map Prod.fst)
    ∧ dictGet (dictUpdate demo_iter1.fragment_map demo_iter2.fragment_map)
        "f001" = dictGet demo_iter1.fragment_map "f001" := by
  decide

/-- Claim C10 (amended): when a text tail is carried, the fragments emitted
by an iteration (indices below `map_anchors_to`) and the fragment tail kept
for the next iteration (indices from `map_anchors_to` on) are disjoint
whenever the text file's fragment ids are distinct, so consecutive
iterations emit disjoint fragment sets and the dictionary update never
overwrites an earlier record: updating with keys avoiding `k` leaves the
record at `k` unchanged. -/
theorem tail_fragment_disjoint_emission (anchors : List ℤ)
    (fragments : List String) (f0 f1 : Nat) (hnd : fragments.Nodup) :
    (∀ f ∈ fragments_to_map anchors fragments f0 f1,
        f ∉ fragments.drop (map_anchors_to anchors f1))
    ∧ (∀ (sub fm : FragMap) (k : String), k ∉ fm.map Prod.fst →
        dictGet (dictUpdate sub fm) k = dictGet sub k) := by
  constructor
  · intro f hf hfd
    have hf2 : f ∈ fragments.take (map_anchors_to anchors f1) :=
      mem_take_of_mem_take_drop hf
    have hnodup2 : (fragments.take (map_anchors_to anchors f1)
        ++ fragments.drop (map_anchors_to anchors f1)).Nodup := by
      rw [List.take_append_drop]
      exact hnd
    exact (List.nodup_append.mp hnodup2).2.2 hf2 hfd
  · intro sub fm k hk
    exact dictGet_dictUpdate_of_not_mem fm sub k hk

/-- Claim C10 (amended, witness): the disjointness at the concrete data of
the counterexample's first iteration. -/
theorem tail_fragment_disjoint_emission_witness :
    wit_fragments.Nodup
    ∧ ((∀ f ∈ fragments_to_map wit_anchors wit_fragments 0 3,
          f ∉ wit_fragments.drop (map_anchors_to wit_anchors 3))
      ∧ (∀ (sub fm : FragMap) (k : String), k ∉ fm.map Prod.fst →
          dictGet (dictUpdate sub fm) k = dictGet sub k)) :=
  ⟨by decide, tail_fragment_disjoint_emission wit_anchors wit_fragments 0 3
    (by decide)⟩
